import Mathlib

/-!
Verification development for the `Math::ContinuedFraction` C++ library
(`continued_fraction.h` plus its implementation file).

The data model and every operation below are shallow embeddings translated
from the C++ source:

* `Coefficient` embeds `ContinuedFraction::Coefficient` {magnitude, sign,
  periodic marker}; the constructor stores `|val|` and ors the sign flag with
  `val < 0`, exactly as the C++ constructor does.
* machine `long long` values are modelled as unbounded `Int` (the claims under
  study never exercise 64-bit overflow);
* `std::vector<Coefficient>` becomes `List Coefficient`;
* C++ integer division/remainder (truncation towards zero) is `Int.tdiv` /
  `Int.tmod`;
* `double` state (`cached_value_`) is modelled as `Rat`; the one numeric
  evaluation analysed (`to_double` of `[1; (2)]`) only involves the dyadic
  values 2, 1/2 and 3/2, on which IEEE-754 double arithmetic is exact, so the
  `Rat` model coincides with the `double` computation there;
* functions that throw (`parse_string`, `from_rational`,
  `sqrt_continued_fraction`, `convergent`) return `Except`/flagged results;
  a `vector::operator[]` access out of bounds (undefined behaviour in C++) is
  modelled by `Option`/`none` results of the indexing helpers.
-/

namespace CFLib

deriving instance DecidableEq for Except

/-- Embeds `ContinuedFraction::Coefficient`: magnitude, sign flag, and the
periodic-marker flag. -/
structure Coefficient where
  value : Nat
  is_negative : Bool
  is_periodic_marker : Bool
  deriving DecidableEq

/-- Embeds the C++ `Coefficient(long long val, bool neg, bool periodic)`
constructor: stores `std::abs(val)`, sets the sign flag to `val < 0 || neg`. -/
def Coefficient.make (val : Int) (neg : Bool) (periodic : Bool) : Coefficient :=
  { value := val.natAbs
    is_negative := (decide (val < 0) || neg)
    is_periodic_marker := periodic }

/-- The C++ constructor with the default arguments `neg = false`,
`periodic = false` (the form used by `emplace_back(c)`). -/
def Coefficient.mk1 (val : Int) : Coefficient := Coefficient.make val false false

/-- Embeds `Coefficient::signed_value()`. -/
def Coefficient.signed_value (c : Coefficient) : Int :=
  if c.is_negative then -(c.value : Int) else (c.value : Int)

/-- Embeds `Coefficient::operator==`: compares signed value and the
periodic-marker flag only. -/
def Coefficient.eqCoeff (a b : Coefficient) : Bool :=
  (a.signed_value == b.signed_value) && (a.is_periodic_marker == b.is_periodic_marker)

/-- The zero coefficient, used as the (never hit, see the lemmas) default of
bounds-checked reads. -/
def zCoeff : Coefficient := { value := 0, is_negative := false, is_periodic_marker := false }

/-- Embeds the `ContinuedFraction` value type's fields: the coefficient vector,
the finiteness/periodicity flags and the `mutable` numeric cache
(`cached_value_` as an exact rational, `value_cached_`). -/
structure ContinuedFraction where
  coefficients : List Coefficient
  is_finite : Bool
  is_periodic : Bool
  cached_value : Rat
  value_cached : Bool
  deriving DecidableEq

/-- First phase of `ContinuedFraction::normalize()`: if the vector has more
than one element, `remove_if` erases every coefficient of magnitude zero at
index > 0 (index 0 is exempt). -/
def removeZeros : List Coefficient → List Coefficient
  | [] => []
  | c :: rest => c :: rest.filter (fun x => !(x.value == 0))

/-- The merge condition of `normalize()`'s second phase, tested on
`coefficients_[i + 1]`: value 1, not negative, not the periodic marker. -/
def mergeCond (c : Coefficient) : Bool :=
  (c.value == 1) && (!c.is_negative) && (!c.is_periodic_marker)

/-- Second phase of `normalize()`: the left-to-right scan
`for (i = 0; i + 2 < size; ++i)` with the `[..., a, 1, b] → [..., a + b]`
merge and the `--i` re-examination after a merge.  The first argument is the
coefficient at the current index `i`, the second the coefficients after it;
the loop guard `i + 2 < size` is exactly "the window holds at least two more
coefficients". On a merge the current coefficient becomes
`Coefficient(signed_value(i) + signed_value(i + 2))` and the scan re-examines
the same index (in C++, `--i` then `++i`); otherwise the scan advances. -/
def mergeStep : Coefficient → List Coefficient → List Coefficient
  | c0, c1 :: c2 :: rest =>
    if mergeCond c1 then
      mergeStep (Coefficient.mk1 (c0.signed_value + c2.signed_value)) rest
    else
      c0 :: mergeStep c1 (c2 :: rest)
  | c0, rest => c0 :: rest

/-- The whole merge scan, started at index 0. -/
def mergePass : List Coefficient → List Coefficient
  | [] => []
  | c0 :: rest => mergeStep c0 rest

/-- The coefficient-level effect of `ContinuedFraction::normalize()`:
zero removal followed by the merge scan. -/
def normalizeCoeffs (cs : List Coefficient) : List Coefficient :=
  mergePass (removeZeros cs)

/-- `update_flags()`'s scan: `std::any_of` over the periodic-marker flags. -/
def hasMarker (cs : List Coefficient) : Bool := cs.any (·.is_periodic_marker)

/-- Embeds `ContinuedFraction::normalize()`: normalizes the coefficients, then
`update_flags()` (is_periodic ⇔ a marker is present, is_finite its negation)
and `invalidate_cache()` (`value_cached_ = false; cached_value_ = 0.0`). -/
def ContinuedFraction.normalize (cf : ContinuedFraction) : ContinuedFraction :=
  let cs := normalizeCoeffs cf.coefficients
  { coefficients := cs
    is_periodic := hasMarker cs
    is_finite := !hasMarker cs
    cached_value := 0
    value_cached := false }

/-- The default constructor: the fraction `[0]`. -/
def ContinuedFraction.default0 : ContinuedFraction :=
  { coefficients := [Coefficient.mk1 0]
    is_finite := true
    is_periodic := false
    cached_value := 0
    value_cached := false }

/-- The `ContinuedFraction(long long value)` constructor: one coefficient,
cache pre-populated. -/
def ContinuedFraction.ofInt (v : Int) : ContinuedFraction :=
  { coefficients := [Coefficient.mk1 v]
    is_finite := true
    is_periodic := false
    cached_value := (v : Rat)
    value_cached := true }

/-- The `ContinuedFraction(const std::vector<long long>&)` constructor: wraps
each value as a plain coefficient, then runs `normalize()`. -/
def ContinuedFraction.ofList (xs : List Int) : ContinuedFraction :=
  ContinuedFraction.normalize
    { coefficients := xs.map Coefficient.mk1
      is_finite := true
      is_periodic := false
      cached_value := 0
      value_cached := false }

/-- Embeds `ContinuedFraction::set_coefficients`: clear, refill, normalize.
The result coincides with the list constructor except that the pre-normalize
flag/cache state is the receiver's; `normalize()` overwrites all of it. -/
def ContinuedFraction.set_coefficients (cf : ContinuedFraction) (xs : List Int) :
    ContinuedFraction :=
  ContinuedFraction.normalize { cf with coefficients := xs.map Coefficient.mk1 }

/-- Embeds `ContinuedFraction::add_coefficient`: append then normalize. -/
def ContinuedFraction.add_coefficient (cf : ContinuedFraction) (v : Int) :
    ContinuedFraction :=
  ContinuedFraction.normalize
    { cf with coefficients := cf.coefficients ++ [Coefficient.mk1 v] }

/-- Embeds `ContinuedFraction::create_periodic`: the non-periodic prefix as
plain coefficients, then (if the periodic part is non-empty) its first element
with the periodic marker set and the rest plain; finally `normalize()`. -/
def ContinuedFraction.create_periodic (nonPeriodic periodic : List Int) :
    ContinuedFraction :=
  let cs := nonPeriodic.map Coefficient.mk1 ++
    (match periodic with
     | [] => []
     | p :: ps => Coefficient.make p false true :: ps.map Coefficient.mk1)
  ContinuedFraction.normalize { ContinuedFraction.default0 with coefficients := cs }

/-- Embeds `ContinuedFraction::get_coefficients`: the signed values. -/
def ContinuedFraction.get_coefficients (cf : ContinuedFraction) : List Int :=
  cf.coefficients.map Coefficient.signed_value

/-- The recurrence loop of `compute_convergent` (`for (i = 2; i <= n; ++i)`),
reading `coefficients_[i % coefficients_.size()]`.  The loop runs `n - 1`
iterations, passed as the structural `fuel`; the modulo keeps every one of its
reads in bounds whenever the list is non-empty, so the `getD` default is never
consulted by `compute_convergent` (which has already read indices 0 and 1). -/
def convLoop (cs : List Coefficient) : Nat → Nat → Int → Int → Int → Int → Int × Int
  | 0, _, _, _, cn, cd => (cn, cd)
  | fuel + 1, i, pn, pd, cn, cd =>
    let a := (cs.getD (i % cs.length) zCoeff).signed_value
    convLoop cs fuel (i + 1) cn cd (a * cn + pn) (a * cd + pd)

/-- Embeds `ContinuedFraction::compute_convergent`.  The C++ reads
`coefficients_[0]` (and, for `n ≥ 1`, `coefficients_[1]` — without any modulo
wrap) through unchecked `vector::operator[]`; an out-of-bounds read is
undefined behaviour and is modelled here as `none`. -/
def ContinuedFraction.compute_convergent (cf : ContinuedFraction) (n : Nat) :
    Option (Int × Int) :=
  if n = 0 then
    (cf.coefficients[0]?).map (fun c => (c.signed_value, 1))
  else
    match cf.coefficients[0]?, cf.coefficients[1]? with
    | some c0, some c1 =>
      some (convLoop cf.coefficients (n - 1) 2
        c0.signed_value 1
        (c0.signed_value * c1.signed_value + 1) c1.signed_value)
    | _, _ => none

/-- Embeds `ContinuedFraction::convergent`: throws `std::out_of_range`
(modelled as `Except.error ()`) when `n >= coefficients_.size() && is_finite_`,
otherwise delegates to `compute_convergent`. -/
def ContinuedFraction.convergent (cf : ContinuedFraction) (n : Nat) :
    Except Unit (Option (Int × Int)) :=
  if cf.coefficients.length ≤ n && cf.is_finite then Except.error ()
  else Except.ok (cf.compute_convergent n)

/-- Embeds `ContinuedFraction::to_double()` over exact rationals: returns the
cache when valid, `0` on an empty vector, otherwise folds the coefficients
from the last stored one to the first with
`value = (value == 0 ? signed : signed + 1 / value)`.  The `value == 0.0`
test guards the division exactly as in the C++. -/
def ContinuedFraction.to_doubleModel (cf : ContinuedFraction) : Rat :=
  if cf.value_cached then cf.cached_value
  else if cf.coefficients.isEmpty then 0
  else cf.coefficients.foldr
    (fun c v => if v = 0 then (c.signed_value : Rat) else (c.signed_value : Rat) + 1 / v) 0

/-- Embeds the comparison loop of `ContinuedFraction::operator==`: equal sizes
and `Coefficient::operator==` at every index. -/
def cfEq (a b : ContinuedFraction) : Bool :=
  (a.coefficients.length == b.coefficients.length) &&
  (List.range a.coefficients.length).all
    (fun i => Coefficient.eqCoeff (a.coefficients.getD i zCoeff) (b.coefficients.getD i zCoeff))

/-- Embeds `ContinuedFraction::operator!=`. -/
def cfNe (a b : ContinuedFraction) : Bool := !cfEq a b

/-- The quotient list pushed by `ContinuedFraction::from_rational`'s loop
`while (d != 0) { q = n / d; r = n % d; push(q); n = d; d = r; }`, with C++
truncated division. -/
def euclidQuotients (n d : Int) : List Int :=
  if _h : d = 0 then []
  else Int.tdiv n d :: euclidQuotients d (Int.tmod n d)
termination_by d.natAbs
decreasing_by
  have h1 : (Int.tmod n d).natAbs = n.natAbs % d.natAbs := by
    cases n <;> cases d <;>
      simp only [Int.tmod, Int.natAbs_neg, Nat.succ_eq_add_one] <;> rfl
  have h2 : 0 < d.natAbs := Int.natAbs_pos.mpr _h
  calc (Int.tmod n d).natAbs = n.natAbs % d.natAbs := h1
    _ < d.natAbs := Nat.mod_lt _ h2

/-- Embeds `ContinuedFraction::from_rational`: `std::invalid_argument`
(modelled `Except.error ()`) on zero denominator, otherwise the vector
constructor applied to the Euclidean quotient list. -/
def ContinuedFraction.from_rational (numerator denominator : Int) :
    Except Unit ContinuedFraction :=
  if denominator = 0 then Except.error ()
  else Except.ok (ContinuedFraction.ofList (euclidQuotients numerator denominator))

/-- Decimal digit characters of a natural number, most significant first, as
printed by `operator<<(std::ostream&, long long)` for non-negative values.
The structural `fuel` dominates the digit count (`n / 10 < n`), so
`natChars` below never exhausts it. -/
def natCharsAux : Nat → Nat → List Char
  | 0, _ => []
  | fuel + 1, n =>
    if n < 10 then [Nat.digitChar n]
    else natCharsAux fuel (n / 10) ++ [Nat.digitChar (n % 10)]

/-- Decimal rendering of a natural number. -/
def natChars (n : Nat) : List Char := natCharsAux (n + 1) n

/-- Decimal rendering of a signed `long long` by `operator<<`: a leading `-`
for negative values, then the digits of the magnitude. -/
def intChars (v : Int) : List Char :=
  if v < 0 then '-' :: natChars v.natAbs else natChars v.natAbs

/-- Embeds `ContinuedFraction::to_string()` at character level: `"[0]"` for an
empty vector, otherwise `[a0`, then for each later coefficient the separator
`"; "` (or `"; ("` on the marker), and the closer `")]"` when `is_periodic_`
is set, else `"]"`. -/
def ContinuedFraction.to_stringChars (cf : ContinuedFraction) : List Char :=
  match cf.coefficients with
  | [] => ['[', '0', ']']
  | c0 :: rest =>
    ('[' :: intChars c0.signed_value)
    ++ rest.flatMap (fun c =>
        (if c.is_periodic_marker then [';', ' ', '('] else [';', ' '])
          ++ intChars c.signed_value)
    ++ (if cf.is_periodic then [')', ']'] else [']'])

/-- The whitespace class skipped by `operator>>` under the C locale. -/
def isSpaceC (c : Char) : Bool :=
  c == ' ' || c == '\t' || c == '\n' || c == '\x0b' || c == '\x0c' || c == '\r'

/-- Skip leading stream whitespace. -/
def skipWs (s : List Char) : List Char := s.dropWhile isSpaceC

/-- Embeds `iss >> ch` for a `char`: skip whitespace, extract one character;
fails at end of input. -/
def readChar (s : List Char) : Option (Char × List Char) :=
  match skipWs s with
  | [] => none
  | c :: rest => some (c, rest)

/-- Numeric value of a decimal digit character. -/
def digitVal (c : Char) : Nat := c.toNat - 48

/-- Accumulate the value of a digit run, as `num_get` does. -/
def digitsVal (ds : List Char) : Nat :=
  ds.foldl (fun a c => a * 10 + digitVal c) 0

/-- The sign-and-digits scan of `num_get` on the already-whitespace-skipped
stream: an optional sign immediately followed by at least one decimal digit;
stops at the first non-digit.  Extraction failure (no digit) is `none` (the
C++ sets `failbit` and, since C++11, stores 0). -/
def readIntCore : List Char → Option (Int × List Char)
  | [] => none
  | c :: rest =>
    if c = '-' then
      let p := rest.span Char.isDigit
      if p.1.isEmpty then none else some (-(digitsVal p.1 : Int), p.2)
    else if c = '+' then
      let p := rest.span Char.isDigit
      if p.1.isEmpty then none else some ((digitsVal p.1 : Int), p.2)
    else
      let p := (c :: rest).span Char.isDigit
      if p.1.isEmpty then none else some ((digitsVal p.1 : Int), p.2)

/-- Embeds `iss >> coeff` for a `long long`: skip whitespace, then the
sign-and-digits scan. -/
def readInt (s : List Char) : Option (Int × List Char) :=
  readIntCore (skipWs s)

/-- Embeds `parse_string`'s token loop
`while (iss >> ch && ch == ';') { iss >> coeff; emplace_back(coeff); }`:
stop when the stream is exhausted or the separator read is not a semicolon;
a failed inner extraction stores 0 (C++11), appends it, and the next
`iss >> ch` fails on the set `failbit`, ending the loop.  Every iteration
consumes at least the semicolon, so the structural `fuel` (one more than the
remaining length at the call site) is never exhausted. -/
def parseLoop : Nat → List Char → List Int → List Int
  | 0, _, acc => acc
  | fuel + 1, s, acc =>
    match readChar s with
    | none => acc
    | some (c, s1) =>
      if c = ';' then
        match readInt s1 with
        | none => acc ++ [0]
        | some (v, s2) => parseLoop fuel s2 (acc ++ [v])
      else acc

/-- The `std::regex_match` against `^\[([^\[\]]+)\]$`: the whole string is a
bracket pair around a non-empty content free of brackets; returns the capture
group. -/
def bracketContent (s : List Char) : Option (List Char) :=
  match s with
  | [] => none
  | c :: rest =>
    if c = '[' ∧ rest.getLast? = some ']' then
      if rest.dropLast.isEmpty then none
      else if rest.dropLast.all (fun x => !(x == '[') && !(x == ']')) then
        some rest.dropLast
      else none
    else none

/-- Embeds `ContinuedFraction::parse_string`: first `coefficients_.clear()`,
then the regex check and the extraction of the leading integer (either
failure throws `std::invalid_argument` — the `true` flag — leaving the
cleared coefficient vector and the untouched flags/cache), then the token
loop and `normalize()`. -/
def ContinuedFraction.parse_string (cf : ContinuedFraction) (s : List Char) :
    ContinuedFraction × Bool :=
  let cleared : ContinuedFraction := { cf with coefficients := [] }
  match bracketContent s with
  | none => (cleared, true)
  | some content =>
    match readInt content with
    | none => (cleared, true)
    | some (a0, rest) =>
      let vals := parseLoop (rest.length + 1) rest [a0]
      (ContinuedFraction.normalize { cf with coefficients := vals.map Coefficient.mk1 }, false)

/-- The `ContinuedFraction(const std::string&)` constructor: runs
`parse_string` on a fresh object (whose pre-parse field values are
irrelevant: a successful parse overwrites every field, and a failing parse
propagates the exception out of the constructor). -/
def ContinuedFraction.ofString (s : List Char) : Except Unit ContinuedFraction :=
  match ContinuedFraction.default0.parse_string s with
  | (cf, false) => Except.ok cf
  | (_, true) => Except.error ()

/-- The period-computation loop of `sqrt_continued_fraction`
(`for (i = 0; i < max_terms; ++i)` with the `a == 2 * a0` early break),
with C++ truncated division. -/
def sqrtLoop (n a0 : Int) : Nat → Int → Int → Int → List Int → List Int
  | 0, _, _, _, acc => acc
  | fuel + 1, m, d, a, acc =>
    let m1 := d * a - m
    let d1 := Int.tdiv (n - m1 * m1) d
    let a1 := Int.tdiv (a0 + m1) d1
    let acc1 := acc ++ [a1]
    if a1 = 2 * a0 then acc1 else sqrtLoop n a0 fuel m1 d1 a1 acc1

/-- Embeds `Math::sqrt_continued_fraction`: negative radicand throws
(`Except.error ()`); `a0 = (long long)std::sqrt(n)` is modelled by the exact
integer square root, which agrees with the C++ double computation for the
small radicands exercised here; a perfect square returns the integer
constructor, otherwise the recurrence runs and everything after `a0` becomes
the periodic tail via `create_periodic`. -/
def sqrt_continued_fraction (n : Int) (max_terms : Nat) :
    Except Unit ContinuedFraction :=
  if n < 0 then Except.error ()
  else
    let a0 := Int.sqrt n
    if a0 * a0 = n then Except.ok (ContinuedFraction.ofInt a0)
    else
      let coeffs := sqrtLoop n a0 max_terms 0 1 a0 [a0]
      Except.ok (ContinuedFraction.create_periodic [a0] (coeffs.drop 1))

/-- The coefficient list built by `e_continued_fraction`'s loop before the
vector constructor runs: 2 first, then for `1 ≤ i < max_terms` the value
`2 * ((i + 1) / 3)` when `i % 3 == 2` and 1 otherwise (`size_t` division). -/
def e_pattern (max_terms : Nat) : List Int :=
  2 :: (List.range' 1 (max_terms - 1)).map
    (fun i => ((if i % 3 = 2 then 2 * ((i + 1) / 3) else 1 : Nat) : Int))

/-- Embeds `Math::e_continued_fraction`: the pattern list fed to the vector
constructor (which normalizes). -/
def e_continued_fraction (max_terms : Nat) : ContinuedFraction :=
  ContinuedFraction.ofList (e_pattern max_terms)

/-- Bool rendering of the §3/§4.1 invariant "coefficients at index > 0 are
never zero". -/
def noZeroTail (cs : List Coefficient) : Bool :=
  (List.range cs.length).all fun i => (i == 0) || !((cs.getD i zCoeff).value == 0)

/-- Bool rendering of the §3/§4.1 invariant "no coefficient of value 1
(non-negative, not the marker) at an interior, non-marker position", interior
meaning `0 < i < size - 1`. -/
def noInteriorOne (cs : List Coefficient) : Bool :=
  (List.range cs.length).all fun i =>
    (i == 0) || (decide (cs.length ≤ i + 1)) || !(mergeCond (cs.getD i zCoeff))

/-- Bool rendering of the claimed closed form of the `e` pattern: length
`max_terms`, first entry 2, and `2 * ⌈(i + 1) / 3⌉` (i.e. `2 * ((i + 3) / 3)`)
at positions `i ≥ 1` with `i % 3 == 2`, else 1. -/
def e_patternCheck (mt : Nat) : Bool :=
  ((e_pattern mt).length == mt) &&
  ((e_pattern mt).getD 0 0 == 2) &&
  (List.range mt).all (fun i =>
    (i == 0) ||
    ((e_pattern mt).getD i 0 == ((if i % 3 = 2 then 2 * ((i + 3) / 3) else 1 : Nat) : Int)))

/-- The character stream the serializer writes for the coefficients after the
first one of a marker-free fraction: `"; "` then the digits, per coefficient
value. -/
def renderTail (as : List Int) : List Char :=
  as.flatMap (fun a => ';' :: ' ' :: intChars a)

/-! ## Helper lemmas about coefficients and the merge scan -/

/-- A non-negative coefficient's signed value is its magnitude. -/
theorem signed_value_of_plain (c : Coefficient) (h : c.is_negative = false) :
    c.signed_value = (c.value : Int) := by
  simp [Coefficient.signed_value, h]

/-- `Coefficient(v)` on a natural-number cast stores the plain coefficient. -/
theorem mk1_natCast (n : Nat) : Coefficient.mk1 (n : Int)
    = { value := n, is_negative := false, is_periodic_marker := false } := by
  have h1 : ¬((n : Int) < 0) := Int.not_lt.mpr (Int.natCast_nonneg n)
  simp [Coefficient.mk1, Coefficient.make, h1]

/-- Invariant of the merge scan on marker-free sequences whose window
coefficients are non-negative with magnitude at least 1: the scan returns a
non-empty sequence whose head only grows, whose tail keeps the window
property, and whose tail holds no coefficient of magnitude 1 except possibly
the last one. -/
theorem mergeStep_plain (c0 : Coefficient) (w : List Coefficient) :
    c0.is_negative = false → c0.is_periodic_marker = false →
    (∀ c ∈ w, c.is_negative = false ∧ c.is_periodic_marker = false ∧ 1 ≤ c.value) →
    ∃ e0 etail, mergeStep c0 w = e0 :: etail ∧
      e0.is_negative = false ∧ e0.is_periodic_marker = false ∧ c0.value ≤ e0.value ∧
      (∀ c ∈ etail, c.is_negative = false ∧ c.is_periodic_marker = false ∧ 1 ≤ c.value) ∧
      (∀ i, i + 1 < etail.length → (etail.getD i zCoeff).value ≠ 1) := by
  induction c0, w using mergeStep.induct with
  | case1 c0 c1 c2 rest hcond ih =>
    intro h0 h0m hw
    have hc2 := hw c2 (by simp)
    have hsum : c0.signed_value + c2.signed_value = ((c0.value + c2.value : Nat) : Int) := by
      rw [signed_value_of_plain c0 h0, signed_value_of_plain c2 hc2.1]
      push_cast
      ring
    have hnew : Coefficient.mk1 (c0.signed_value + c2.signed_value)
        = { value := c0.value + c2.value, is_negative := false,
            is_periodic_marker := false } := by
      rw [hsum, mk1_natCast]
    obtain ⟨e0, etail, heq, he0n, he0m, hle, htail, hone⟩ :=
      ih (by rw [hnew]) (by rw [hnew]) (fun c hc => hw c (by simp [hc]))
    refine ⟨e0, etail, ?_, he0n, he0m, ?_, htail, hone⟩
    · rw [mergeStep, if_pos hcond]
      exact heq
    · have : (Coefficient.mk1 (c0.signed_value + c2.signed_value)).value
          = c0.value + c2.value := by rw [hnew]
      omega
  | case2 c0 c1 c2 rest hcond ih =>
    intro h0 h0m hw
    have hc1 := hw c1 (by simp)
    have h1ne : c1.value ≠ 1 := by
      intro hv
      exact hcond (by simp [mergeCond, hv, hc1.1, hc1.2.1])
    obtain ⟨e0, etail, heq, he0n, he0m, hle, htail, hone⟩ :=
      ih hc1.1 hc1.2.1 (fun c hc => hw c (by simp [hc]))
    refine ⟨c0, e0 :: etail, ?_, h0, h0m, Nat.le_refl _, ?_, ?_⟩
    · rw [mergeStep, if_neg hcond, heq]
    · intro c hc
      rcases List.mem_cons.mp hc with rfl | hc
      · exact ⟨he0n, he0m, Nat.le_trans hc1.2.2 hle⟩
      · exact htail c hc
    · intro i hilt
      cases i with
      | zero =>
        rw [List.getD_cons_zero]
        have h2 : 2 ≤ c1.value := by omega
        omega
      | succ j =>
        rw [List.getD_cons_succ]
        exact hone j (by simpa using hilt)
  | case3 c0 rest hsmall =>
    intro h0 h0m hw
    match rest, hsmall with
    | [], _ =>
      exact ⟨c0, [], rfl, h0, h0m, Nat.le_refl _, by simp, by intro i hi; simp at hi⟩
    | [ca], _ =>
      refine ⟨c0, [ca], rfl, h0, h0m, Nat.le_refl _, ?_, ?_⟩
      · intro c hc
        rcases List.mem_singleton.mp hc with rfl
        exact hw c (by simp)
      · intro i hi
        simp at hi
    | ca :: cb :: rr, hsm =>
      exact absurd rfl (hsm ca cb rr)

/-! ## Claim C2 — the canonical-state invariant after normalization

Zero removal runs *before* the merge scan, and a merge writes
`signed_value(i) + signed_value(i + 2)` at position `i`; with negative
coefficients that sum can be 0 (reintroducing a zero at index > 0) or 1
(leaving a plain interior 1 the scan never revisits).  For all-non-negative
inputs the invariant does hold, which is the amended statement proved
below. -/

/-- C2 counterexample: two constructor runs on valid inputs break both halves
of the claimed invariant — {5, 2, 1, -2} normalizes to [5, 0] (zero at
index 1), and {3, 2, 1, -1, 7} normalizes to [3, 1, 7] (plain 1 at the
interior position 1). -/
theorem canonical_invariant_fails_on_negatives :
    (ContinuedFraction.ofList [5, 2, 1, -2]).get_coefficients = [5, 0] ∧
    noZeroTail (ContinuedFraction.ofList [5, 2, 1, -2]).coefficients = false ∧
    (ContinuedFraction.ofList [3, 2, 1, -1, 7]).get_coefficients = [3, 1, 7] ∧
    noInteriorOne (ContinuedFraction.ofList [3, 2, 1, -1, 7]).coefficients = false := by
  decide

/-- C2 (amended): for every fraction built from all-non-negative coefficient
inputs, the canonical state holds after normalization: no coefficient at
index > 0 has magnitude zero, and no plain (non-negative, non-marker)
coefficient of value 1 sits at an interior position.  With negative inputs
the merge scan can reintroduce both (see the counterexample). -/
theorem normalized_canonical_for_nonneg (xs : List Int) (hx : ∀ x ∈ xs, 0 ≤ x) :
    noZeroTail (ContinuedFraction.ofList xs).coefficients = true ∧
    noInteriorOne (ContinuedFraction.ofList xs).coefficients = true := by
  cases xs with
  | nil => decide
  | cons x xt =>
    have hx0 : 0 ≤ x := hx x (by simp)
    have hhn : (Coefficient.mk1 x).is_negative = false := by
      simp [Coefficient.mk1, Coefficient.make, Int.not_lt.mpr hx0]
    have hhm : (Coefficient.mk1 x).is_periodic_marker = false := rfl
    have htprop : ∀ c ∈ (xt.map Coefficient.mk1).filter (fun c => !(c.value == 0)),
        c.is_negative = false ∧ c.is_periodic_marker = false ∧ 1 ≤ c.value := by
      intro c hc
      obtain ⟨hcm, hcv⟩ := List.mem_filter.mp hc
      obtain ⟨y, hy, rfl⟩ := List.mem_map.mp hcm
      have hy0 : 0 ≤ y := hx y (by simp [hy])
      refine ⟨by simp [Coefficient.mk1, Coefficient.make, Int.not_lt.mpr hy0], rfl, ?_⟩
      have : (Coefficient.mk1 y).value ≠ 0 := by
        simpa using hcv
      omega
    obtain ⟨e0, etail, heq, he0n, he0m, hle, htail, hone⟩ :=
      mergeStep_plain (Coefficient.mk1 x)
        ((xt.map Coefficient.mk1).filter (fun c => !(c.value == 0))) hhn hhm htprop
    have hco : (ContinuedFraction.ofList (x :: xt)).coefficients = e0 :: etail := by
      show mergePass (removeZeros ((x :: xt).map Coefficient.mk1)) = e0 :: etail
      rw [show removeZeros ((x :: xt).map Coefficient.mk1)
          = Coefficient.mk1 x
            :: (xt.map Coefficient.mk1).filter (fun c => !(c.value == 0)) from rfl]
      exact heq
    rw [hco]
    constructor
    · simp only [noZeroTail, List.all_eq_true, List.mem_range, Bool.or_eq_true]
      intro i hi
      cases i with
      | zero => simp
      | succ j =>
        refine Or.inr ?_
        have hj : j < etail.length := by
          simp only [List.length_cons] at hi
          omega
        rw [List.getD_cons_succ, List.getD_eq_getElem _ _ hj]
        have hmem := htail _ (List.getElem_mem hj)
        simp only [Bool.not_eq_eq_eq_not, Bool.not_true, beq_eq_false_iff_ne, ne_eq]
        omega
    · simp only [noInteriorOne, List.all_eq_true, List.mem_range, Bool.or_eq_true]
      intro i hi
      cases i with
      | zero => simp
      | succ j =>
        by_cases hlast : (e0 :: etail).length ≤ j + 1 + 1
        · exact Or.inl (Or.inr (by simpa using hlast))
        · refine Or.inr ?_
          have hj1 : j + 1 < etail.length := by
            simp only [List.length_cons] at hlast
            omega
          rw [List.getD_cons_succ]
          simp only [mergeCond, Bool.not_eq_eq_eq_not, Bool.not_true,
            Bool.and_eq_false_iff, beq_eq_false_iff_ne, ne_eq,
            Bool.not_eq_eq_eq_not, Bool.not_false]
          exact Or.inl (Or.inl (hone j hj1))

/-- C2 witness: the amended statement applied to the all-non-negative input
{2, 1, 1, 1, 3}. -/
theorem canonical_invariant_nonneg_witness :
    noZeroTail (ContinuedFraction.ofList [2, 1, 1, 1, 3]).coefficients = true ∧
    noInteriorOne (ContinuedFraction.ofList [2, 1, 1, 1, 3]).coefficients = true :=
  normalized_canonical_for_nonneg [2, 1, 1, 1, 3] (by decide)

/-! ## Claim C4 — convergents of the fraction built from {3, 7, 15, 1, 292}

The vector constructor runs `normalize()`, whose merge scan collapses
`15, 1, 292` into `307`, so the stored sequence is `[3; 7, 307]`, not
`[3; 7, 15, 1, 292]`. -/

/-- C4 counterexample: on the fraction constructed from {3, 7, 15, 1, 292},
`convergent(2)` is (6757, 2150), not the claimed (333, 106), and
`convergent(3)` throws `std::out_of_range` instead of returning (355, 113). -/
theorem convergent_pi_claimed_values_fail :
    (ContinuedFraction.ofList [3, 7, 15, 1, 292]).convergent 2
        ≠ Except.ok (some (333, 106)) ∧
    (ContinuedFraction.ofList [3, 7, 15, 1, 292]).convergent 3
        ≠ Except.ok (some (355, 113)) := by
  decide

/-- C4 (amended): the constructor normalizes {3, 7, 15, 1, 292} to the stored
sequence [3; 7, 307]; `convergent(0)` = (3, 1) and `convergent(1)` = (22, 7)
as claimed, but `convergent(2)` = (6757, 2150) and `convergent(3)` throws
out-of-range. -/
theorem convergent_pi_actual_values :
    (ContinuedFraction.ofList [3, 7, 15, 1, 292]).get_coefficients = [3, 7, 307] ∧
    (ContinuedFraction.ofList [3, 7, 15, 1, 292]).convergent 0 = Except.ok (some (3, 1)) ∧
    (ContinuedFraction.ofList [3, 7, 15, 1, 292]).convergent 1 = Except.ok (some (22, 7)) ∧
    (ContinuedFraction.ofList [3, 7, 15, 1, 292]).convergent 2 = Except.ok (some (6757, 2150)) ∧
    (ContinuedFraction.ofList [3, 7, 15, 1, 292]).convergent 3 = Except.error () := by
  decide

/-! ## Claim C10 — index safety of the convergent computation

`create_periodic({}, {2})` stores the single marker coefficient `(2)`, and
`is_periodic()` is true, so `convergent(1)` passes the range check; the
initialization step of `compute_convergent` then reads `coefficients_[1]`
with no modulo wrap — an out-of-bounds `vector::operator[]` access on the
size-1 vector, modelled as the `none` result. -/

/-- C10: the size-1 periodic fraction `create_periodic({}, {2})` passes
`convergent(1)`'s range check (no `out_of_range` throw), yet
`compute_convergent` performs an out-of-bounds coefficient read (`none`):
the claimed in-bounds property fails exactly at the initialization read of
index 1. -/
theorem convergent_oob_read_on_size_one_periodic :
    (ContinuedFraction.create_periodic [] [2]).is_periodic = true ∧
    (ContinuedFraction.create_periodic [] [2]).coefficients.length = 1 ∧
    (ContinuedFraction.create_periodic [] [2]).convergent 1 = Except.ok none := by
  decide

/-! ## Claim C1 — survival of the periodic marker under normalization

The merge condition does protect the marker in the middle ("the 1") slot,
but a marker coefficient adjacent to a plain 1 is absorbed as a merge
operand: `coefficients_[i] = Coefficient(new_val)` rebuilds the left
neighbour without its marker, and the erase removes the right neighbour
marker outright. -/

/-- C1 counterexample: `create_periodic({5, 1}, {2})` builds
`[5, 1, (2)]`; the merge consumes the plain 1 and absorbs the marker
coefficient `(2)` into `5 + 2 = 7`, leaving `[7]` with no marker and
`is_periodic()` false — the claim's conclusion fails although the periodic
part was non-empty. -/
theorem periodic_marker_absorbed_by_merge :
    (ContinuedFraction.create_periodic [5, 1] [2]).is_periodic = false ∧
    (ContinuedFraction.create_periodic [5, 1] [2]).coefficients.all
      (fun c => !c.is_periodic_marker) = true ∧
    (ContinuedFraction.create_periodic [5, 1] [2]).get_coefficients = [7] := by
  decide

/-- C1 (amended): normalization never consumes a marker coefficient as the
"1" of a merge step — a marker of value 1 sitting in the middle slot is left
alone, as witnessed by `create_periodic({a}, {1, b})` (any `b ≠ 0`), which
keeps the sequence `[a, (1), b]` intact and periodic; however a marker
adjacent to a plain 1 may be absorbed as a merge operand, so in general the
marker and `is_periodic()` need not survive (see the counterexample). -/
theorem marker_one_not_consumed_as_merge_one (a b : Int) (hb : b ≠ 0) :
    (ContinuedFraction.create_periodic [a] [1, b]).coefficients
        = [Coefficient.mk1 a, Coefficient.make 1 false true, Coefficient.mk1 b] ∧
    (ContinuedFraction.create_periodic [a] [1, b]).is_periodic = true := by
  have hv : ((Coefficient.mk1 b).value == 0) = false := by
    simp [Coefficient.mk1, Coefficient.make, Int.natAbs_eq_zero, hb]
  constructor <;>
    simp [ContinuedFraction.create_periodic, ContinuedFraction.normalize,
      normalizeCoeffs, removeZeros, mergePass, mergeStep, hasMarker, hv,
      Coefficient.make, mergeCond]

/-- C1 witness: the amended statement applied at `a = 3`, `b = 4`. -/
theorem marker_one_not_consumed_witness :
    (ContinuedFraction.create_periodic [3] [1, 4]).coefficients
        = [Coefficient.mk1 3, Coefficient.make 1 false true, Coefficient.mk1 4] ∧
    (ContinuedFraction.create_periodic [3] [1, 4]).is_periodic = true :=
  marker_one_not_consumed_as_merge_one 3 4 (by decide)

/-! ## Claim C6 — equality of parsed and list-built fractions

The demo strings use `", "` between the later coefficients, but the token
loop only continues past a `';'`; on `"[1; 2, 3]"` it reads 1 and 2, meets
the comma, and stops, so the parsed fraction is `[1; 2]`. -/

/-- C6 counterexample: `ContinuedFraction("[1; 2, 3]")` parses to `[1; 2]`
(the comma ends the token loop), so it is *not* `operator==`-equal to the
list-built {1,2,3} fraction, and `"[1; 2, 4]"` also parses to `[1; 2]`, so
`operator!=` on the two parsed fractions is false — both conjuncts of the
claim fail. -/
theorem parse_comma_equalities_fail :
    ContinuedFraction.ofString ("[1; 2, 3]".data)
        = Except.ok (ContinuedFraction.ofList [1, 2]) ∧
    cfEq (ContinuedFraction.ofList [1, 2]) (ContinuedFraction.ofList [1, 2, 3]) = false ∧
    ContinuedFraction.ofString ("[1; 2, 4]".data)
        = Except.ok (ContinuedFraction.ofList [1, 2]) ∧
    cfNe (ContinuedFraction.ofList [1, 2]) (ContinuedFraction.ofList [1, 2]) = false := by
  decide

/-- C6 (amended): with the separators the read grammar actually accepts
(a semicolon before every coefficient), the claimed relations hold:
`"[1; 2; 3]"` parses `operator==`-equal to the list-built {1,2,3} fraction,
and `"[1; 2; 3]"` vs `"[1; 2; 4]"` are `operator!=`-unequal. -/
theorem parse_semicolon_equalities_hold :
    ContinuedFraction.ofString ("[1; 2; 3]".data)
        = Except.ok (ContinuedFraction.ofList [1, 2, 3]) ∧
    cfEq (ContinuedFraction.ofList [1, 2, 3]) (ContinuedFraction.ofList [1, 2, 3]) = true ∧
    ContinuedFraction.ofString ("[1; 2; 4]".data)
        = Except.ok (ContinuedFraction.ofList [1, 2, 4]) ∧
    cfNe (ContinuedFraction.ofList [1, 2, 3]) (ContinuedFraction.ofList [1, 2, 4]) = true := by
  decide

/-! ## Claim C3 — the coefficient pattern of `e_continued_fraction`

The loop pushes the closed-form pattern, but the function returns
`ContinuedFraction(coeffs)`, and that constructor's `normalize()` merges
every interior 1 away; for `max_terms ≥ 3` the stored sequence no longer
follows the pattern. -/

/-- C3 counterexample: `e_continued_fraction(3)` returns the single
coefficient [4] (normalize merges the pushed pattern [2, 1, 2]); its
coefficient 0 is not 2, falsifying the claimed closed form at
`max_terms = 3`. -/
theorem e_fraction_pattern_destroyed :
    (e_continued_fraction 3).get_coefficients = [4] ∧
    (e_continued_fraction 3).get_coefficients ≠ [2, 1, 2] ∧
    (e_continued_fraction 10).get_coefficients = [5, 5, 6, 1] := by
  decide

/-- C3 (amended): for every `max_terms ≥ 1` the list the loop *pushes*
follows the claimed closed form — first entry 2, entry `i` (for
`1 ≤ i < max_terms`) equal to `2 * ⌈(i + 1) / 3⌉` when `i % 3 == 2`, else 1 —
and `e_continued_fraction` returns the vector constructor (hence the
normalization) applied to that pattern list, not the pattern list itself. -/
theorem e_fraction_builds_pattern_then_normalizes (mt : Nat) (h : 1 ≤ mt) :
    e_patternCheck mt = true ∧
    e_continued_fraction mt = ContinuedFraction.ofList (e_pattern mt) := by
  refine ⟨?_, rfl⟩
  have hlen : (e_pattern mt).length = mt := by
    simp [e_pattern, List.length_range']
    omega
  simp only [e_patternCheck, Bool.and_eq_true, Bool.or_eq_true, beq_iff_eq,
    List.all_eq_true, List.mem_range]
  refine ⟨⟨hlen, rfl⟩, ?_⟩
  intro i hi
  rcases Nat.eq_zero_or_pos i with h0 | h0
  · exact Or.inl h0
  · refine Or.inr ?_
    obtain ⟨j, rfl⟩ : ∃ j, i = j + 1 := ⟨i - 1, by omega⟩
    have hj : j < (mt - 1) := by omega
    have hmap : ((List.range' 1 (mt - 1)).map
        (fun i => ((if i % 3 = 2 then 2 * ((i + 1) / 3) else 1 : Nat) : Int))).length
          = mt - 1 := by
      simp [List.length_range']
    rw [e_pattern, List.getD_cons_succ, List.getD_eq_getElem _ _ (by rw [hmap]; exact hj)]
    rw [List.getElem_map]
    rw [List.getElem_range']
    have he : 1 + 1 * j = j + 1 := by omega
    rw [he]
    have harith : (if (j + 1) % 3 = 2 then 2 * (((j + 1) + 1) / 3) else 1)
        = (if (j + 1) % 3 = 2 then 2 * (((j + 1) + 3) / 3) else 1) := by
      by_cases hc : (j + 1) % 3 = 2
      · rw [if_pos hc, if_pos hc]
        omega
      · rw [if_neg hc, if_neg hc]
    exact congrArg _ harith

/-- C3 witness: the amended statement applied at `max_terms = 10`. -/
theorem e_fraction_pattern_witness :
    e_patternCheck 10 = true ∧
    e_continued_fraction 10 = ContinuedFraction.ofList (e_pattern 10) :=
  e_fraction_builds_pattern_then_normalizes 10 (by decide)

/-! ## Claim C5 — `from_rational` and the Euclidean quotients

The Euclidean algorithm on (355, 113) produces the quotients 3, 7, 16
(355 = 3·113 + 16, 113 = 7·16 + 1, 16 = 16·1), not the claimed
[3, 7, 15, 1]; both expand the same rational, but the code stores the
quotient sequence (then normalizes it). -/

/-- The three-step evaluation of the Euclidean quotients of 355/113. -/
theorem euclidQuotients_355_113 : euclidQuotients 355 113 = [3, 7, 16] := by
  rw [euclidQuotients, dif_neg (by decide : ¬(113 : Int) = 0),
    show Int.tdiv 355 113 = 3 from by decide, show Int.tmod 355 113 = 16 from by decide,
    euclidQuotients, dif_neg (by decide : ¬(16 : Int) = 0),
    show Int.tdiv 113 16 = 7 from by decide, show Int.tmod 113 16 = 1 from by decide,
    euclidQuotients, dif_neg (by decide : ¬(1 : Int) = 0),
    show Int.tdiv 16 1 = 16 from by decide, show Int.tmod 16 1 = 0 from by decide,
    euclidQuotients, dif_pos rfl]

/-- C5 counterexample: `from_rational(355, 113)` stores the coefficient
sequence [3, 7, 16], not the claimed [3, 7, 15, 1]. -/
theorem from_rational_355_113_not_as_claimed :
    ContinuedFraction.from_rational 355 113
        = Except.ok (ContinuedFraction.ofList [3, 7, 16]) ∧
    (ContinuedFraction.ofList [3, 7, 16]).get_coefficients = [3, 7, 16] ∧
    (ContinuedFraction.ofList [3, 7, 16]).get_coefficients ≠ [3, 7, 15, 1] := by
  refine ⟨?_, by decide, by decide⟩
  rw [ContinuedFraction.from_rational, if_neg (by decide : ¬(113 : Int) = 0),
    euclidQuotients_355_113]

/-- C5 (amended): `from_rational(355, 113)` yields the coefficients
[3, 7, 16] — the truncated-division Euclidean quotient sequence — and in
general, for every non-zero denominator, `from_rational` returns the vector
constructor (which normalizes) applied to the Euclidean quotient list of
(numerator, denominator). -/
theorem from_rational_euclid (n d : Int) (hd : d ≠ 0) :
    ContinuedFraction.from_rational n d
      = Except.ok (ContinuedFraction.ofList (euclidQuotients n d)) ∧
    ContinuedFraction.from_rational 355 113
      = Except.ok (ContinuedFraction.ofList [3, 7, 16]) := by
  refine ⟨?_, ?_⟩
  · rw [ContinuedFraction.from_rational, if_neg hd]
  · rw [ContinuedFraction.from_rational, if_neg (by decide : ¬(113 : Int) = 0),
      euclidQuotients_355_113]

/-- C5 witness: the amended statement applied at numerator 7, denominator 3. -/
theorem from_rational_euclid_witness :
    ContinuedFraction.from_rational 7 3
      = Except.ok (ContinuedFraction.ofList (euclidQuotients 7 3)) ∧
    ContinuedFraction.from_rational 355 113
      = Except.ok (ContinuedFraction.ofList [3, 7, 16]) :=
  from_rational_euclid 7 3 (by decide)

/-! ## Claim C7 — the square of `sqrt_continued_fraction(2, 10).to_double()`

The recurrence for √2 stops after one step (`a = 2 = 2·a0`), so the stored
representative is `[1; (2)]`; `to_double` folds only the stored coefficients,
giving `1 + 1/2 = 1.5`, whose square is 2.25.  Every intermediate value
(2, 1/2, 3/2) is a small dyadic rational, exactly representable in IEEE-754
double, so the exact-rational fold below coincides with the C++ `double`
computation on this input. -/

/-- `(long long)std::sqrt(2)` is 1, and so is the exact integer square root
modelling it. -/
theorem int_sqrt_two : Int.sqrt 2 = 1 := by
  show ((Nat.sqrt 2 : Nat) : Int) = 1
  norm_num [Nat.sqrt]

/-- The √2 expansion stops after one recurrence step and stores `[1; (2)]`. -/
theorem sqrt_cf_two_eval :
    sqrt_continued_fraction 2 10 = Except.ok (ContinuedFraction.create_periodic [1] [2]) := by
  simp only [sqrt_continued_fraction, int_sqrt_two]
  norm_num
  decide

/-- `to_double` of `[1; (2)]` folds only the stored coefficients: 1 + 1/2. -/
theorem sqrt_cf_two_to_double :
    (ContinuedFraction.create_periodic [1] [2]).to_doubleModel = 3 / 2 := by
  have hc : (ContinuedFraction.create_periodic [1] [2]).coefficients
      = [Coefficient.mk1 1, Coefficient.make 2 false true] := by decide
  have hv : (ContinuedFraction.create_periodic [1] [2]).value_cached = false := by decide
  have h1 : (Coefficient.mk1 1).signed_value = 1 := by decide
  have h2 : (Coefficient.make 2 false true).signed_value = 2 := by decide
  rw [ContinuedFraction.to_doubleModel, hv, hc]
  simp only [List.foldr, h1, h2, List.isEmpty]
  norm_num

/-- C7 counterexample: the square of `sqrt_continued_fraction(2, 10)`'s
evaluated value differs from 2 by 1/4, which is not below the claimed 1e-6
bound. -/
theorem sqrt2_squared_not_within_tolerance :
    sqrt_continued_fraction 2 10 = Except.ok (ContinuedFraction.create_periodic [1] [2]) ∧
    ¬(|(ContinuedFraction.create_periodic [1] [2]).to_doubleModel
        * (ContinuedFraction.create_periodic [1] [2]).to_doubleModel - 2| < 1 / 1000000) := by
  refine ⟨sqrt_cf_two_eval, ?_⟩
  rw [sqrt_cf_two_to_double]
  rw [show (3 / 2 : Rat) * (3 / 2) - 2 = 1 / 4 from by norm_num]
  rw [abs_of_pos (by norm_num : (0 : Rat) < 1 / 4)]
  norm_num

/-- C7 (amended): `sqrt_continued_fraction(2, 10)` stores the one-period
representative `[1; (2)]`; `to_double` folds only the stored coefficients and
returns 1.5, whose square differs from 2 by exactly 1/4 (not within 1e-6). -/
theorem sqrt2_squared_exact_error :
    sqrt_continued_fraction 2 10 = Except.ok (ContinuedFraction.create_periodic [1] [2]) ∧
    (ContinuedFraction.create_periodic [1] [2]).to_doubleModel = 3 / 2 ∧
    |(ContinuedFraction.create_periodic [1] [2]).to_doubleModel
        * (ContinuedFraction.create_periodic [1] [2]).to_doubleModel - 2| = 1 / 4 := by
  refine ⟨sqrt_cf_two_eval, sqrt_cf_two_to_double, ?_⟩
  rw [sqrt_cf_two_to_double]
  rw [show (3 / 2 : Rat) * (3 / 2) - 2 = 1 / 4 from by norm_num]
  exact abs_of_pos (by norm_num : (0 : Rat) < 1 / 4)

/-! ## Claim C8 — failed parses leave the cleared state -/

/-- C8: `parse_string` clears the coefficient vector before validating; both
throw sites (`regex_match` failure, unreadable first integer) fire before any
refill or `normalize()`, so after a failing parse the instance holds an empty
coefficient vector while the flags and the cache fields still hold their
pre-call values — no rollback. -/
theorem parse_failure_leaves_cleared_state (cf : ContinuedFraction) (s : List Char)
    (h : (cf.parse_string s).2 = true) :
    (cf.parse_string s).1.coefficients = [] ∧
    (cf.parse_string s).1.is_finite = cf.is_finite ∧
    (cf.parse_string s).1.is_periodic = cf.is_periodic ∧
    (cf.parse_string s).1.cached_value = cf.cached_value ∧
    (cf.parse_string s).1.value_cached = cf.value_cached := by
  unfold ContinuedFraction.parse_string at h ⊢
  cases hb : bracketContent s with
  | none => simp [hb]
  | some content =>
    cases hr : readInt content with
    | none => simp [hb, hr]
    | some p => simp [hb, hr] at h

/-- C8 witness: a previously valid instance (built from {1, 2, 3}) parsing
the malformed string `"oops"`: the parse fails and the state is the cleared
coefficient vector with the old flags and cache. -/
theorem parse_failure_cleared_witness :
    ((ContinuedFraction.ofList [1, 2, 3]).parse_string ("oops".data)).2 = true ∧
    (((ContinuedFraction.ofList [1, 2, 3]).parse_string ("oops".data)).1.coefficients = [] ∧
     ((ContinuedFraction.ofList [1, 2, 3]).parse_string ("oops".data)).1.is_finite
        = (ContinuedFraction.ofList [1, 2, 3]).is_finite ∧
     ((ContinuedFraction.ofList [1, 2, 3]).parse_string ("oops".data)).1.is_periodic
        = (ContinuedFraction.ofList [1, 2, 3]).is_periodic ∧
     ((ContinuedFraction.ofList [1, 2, 3]).parse_string ("oops".data)).1.cached_value
        = (ContinuedFraction.ofList [1, 2, 3]).cached_value ∧
     ((ContinuedFraction.ofList [1, 2, 3]).parse_string ("oops".data)).1.value_cached
        = (ContinuedFraction.ofList [1, 2, 3]).value_cached) :=
  ⟨by decide, parse_failure_leaves_cleared_state (ContinuedFraction.ofList [1, 2, 3])
    ("oops".data) (by decide)⟩

/-! ## Claim C9 — serializer/parser round-trip for finite fractions

Helper lemmas: the decimal rendering emitted by the write path is recovered
exactly by the read path's tokenizer. -/

/-- The ten digit characters are digits and carry their value. -/
theorem digitChar_spec (m : Nat) (h : m < 10) :
    (Nat.digitChar m).isDigit = true ∧ digitVal (Nat.digitChar m) = m := by
  interval_cases m <;> exact ⟨by decide, by decide⟩

/-- Appending one digit multiplies the accumulated value by ten. -/
theorem digitsVal_append_digit (xs : List Char) (c : Char) :
    digitsVal (xs ++ [c]) = digitsVal xs * 10 + digitVal c := by
  simp [digitsVal, List.foldl_append]

/-- The digit rendering of a natural number is a non-empty all-digit run
whose accumulated value is the number itself (for sufficient fuel). -/
theorem natCharsAux_spec : ∀ (fuel n : Nat), n < fuel →
    natCharsAux fuel n ≠ [] ∧ (∀ c ∈ natCharsAux fuel n, c.isDigit = true) ∧
    digitsVal (natCharsAux fuel n) = n := by
  intro fuel
  induction fuel with
  | zero => intro n h; omega
  | succ f ih =>
    intro n h
    rw [natCharsAux]
    by_cases h10 : n < 10
    · rw [if_pos h10]
      obtain ⟨hd, hv⟩ := digitChar_spec n h10
      refine ⟨by simp, ?_, ?_⟩
      · intro c hc
        rw [List.mem_singleton.mp hc]
        exact hd
      · simp only [digitsVal, List.foldl]
        omega
    · rw [if_neg h10]
      have hdiv : n / 10 < f := by
        have := Nat.div_lt_self (by omega : 0 < n) (by omega : 1 < 10)
        omega
      obtain ⟨hne, hdigits, hval⟩ := ih (n / 10) hdiv
      obtain ⟨hd2, hv2⟩ := digitChar_spec (n % 10) (Nat.mod_lt _ (by omega))
      refine ⟨by simp [hne], ?_, ?_⟩
      · intro c hc
        rcases List.mem_append.mp hc with hc | hc
        · exact hdigits c hc
        · rw [List.mem_singleton.mp hc]
          exact hd2
      · rw [digitsVal_append_digit, hval, hv2]
        omega

/-- Specialization of `natCharsAux_spec` to the fuel `natChars` uses. -/
theorem natChars_spec (n : Nat) : natChars n ≠ [] ∧
    (∀ c ∈ natChars n, c.isDigit = true) ∧ digitsVal (natChars n) = n :=
  natCharsAux_spec (n + 1) n (by omega)

/-- The rendering of an integer is non-empty and made of `-` and digits. -/
theorem intChars_spec (v : Int) : intChars v ≠ [] ∧
    (∀ c ∈ intChars v, c = '-' ∨ c.isDigit = true) := by
  unfold intChars
  obtain ⟨hne, hdig, _⟩ := natChars_spec v.natAbs
  by_cases hv : v < 0
  · rw [if_pos hv]
    refine ⟨by simp, ?_⟩
    intro c hc
    rcases List.mem_cons.mp hc with rfl | hc
    · exact Or.inl rfl
    · exact Or.inr (hdig c hc)
  · rw [if_neg hv]
    exact ⟨hne, fun c hc => Or.inr (hdig c hc)⟩

/-- A digit character is not stream whitespace. -/
theorem isSpaceC_false_of_digit (c : Char) (h : c.isDigit = true) :
    isSpaceC c = false := by
  rcases hc : isSpaceC c with _ | _
  · rfl
  · exfalso
    have hcs : c = ' ' ∨ c = '\t' ∨ c = '\n' ∨ c = '\x0b' ∨ c = '\x0c' ∨ c = '\r' := by
      simpa [isSpaceC, Bool.or_eq_true, beq_iff_eq, or_assoc] using hc
    rcases hcs with rfl | rfl | rfl | rfl | rfl | rfl <;> exact absurd h (by decide)

/-- `skipWs` leaves a stream alone when its head is not whitespace. -/
theorem skipWs_cons_of_not_space (c : Char) (t : List Char) (h : isSpaceC c = false) :
    skipWs (c :: t) = c :: t := by
  simp [skipWs, List.dropWhile_cons, h]

/-- `skipWs` leaves a rendered integer (and whatever follows it) alone. -/
theorem skipWs_intChars_append (v : Int) (rest : List Char) :
    skipWs (intChars v ++ rest) = intChars v ++ rest := by
  obtain ⟨hne, hcl⟩ := intChars_spec v
  obtain ⟨d, ds, hd⟩ := List.exists_cons_of_ne_nil hne
  rw [hd, List.cons_append]
  apply skipWs_cons_of_not_space
  rcases hcl d (by rw [hd]; exact List.mem_cons_self d ds) with rfl | hdig
  · decide
  · exact isSpaceC_false_of_digit _ hdig

/-- The tokenizer's digit scan splits a digit run followed by a non-digit
exactly at the boundary. -/
theorem takeWhile_digits_append (ds rest : List Char)
    (hds : ∀ c ∈ ds, c.isDigit = true)
    (hrest : ∀ c, rest.head? = some c → c.isDigit = false) :
    (ds ++ rest).takeWhile Char.isDigit = ds ∧
    (ds ++ rest).dropWhile Char.isDigit = rest := by
  induction ds with
  | nil =>
    simp only [List.nil_append]
    cases rest with
    | nil => simp
    | cons r rt =>
      have hr : r.isDigit = false := hrest r rfl
      exact ⟨by simp [List.takeWhile_cons, hr], by simp [List.dropWhile_cons, hr]⟩
  | cons d dt ih =>
    have hd : d.isDigit = true := hds d (by simp)
    obtain ⟨ht, hdr⟩ := ih (fun c hc => hds c (by simp [hc]))
    exact ⟨by simp [List.takeWhile_cons, hd, ht], by simp [List.dropWhile_cons, hd, hdr]⟩

/-- `span` form of `takeWhile_digits_append`. -/
theorem span_digits (ds rest : List Char)
    (hds : ∀ c ∈ ds, c.isDigit = true)
    (hrest : ∀ c, rest.head? = some c → c.isDigit = false) :
    (ds ++ rest).span Char.isDigit = (ds, rest) := by
  obtain ⟨h1, h2⟩ := takeWhile_digits_append ds rest hds hrest
  rw [List.span_eq_take_drop, h1, h2]

/-- The extraction `iss >> coeff` recovers exactly the integer the serializer
rendered, leaving the rest of the stream (which must not begin with a digit)
untouched. -/
theorem readIntCore_intChars (v : Int) (rest : List Char)
    (hrest : ∀ c, rest.head? = some c → c.isDigit = false) :
    readIntCore (intChars v ++ rest) = some (v, rest) := by
  obtain ⟨hnn, hnd, hnv⟩ := natChars_spec v.natAbs
  have hie : (natChars v.natAbs).isEmpty = false := by
    cases hni : natChars v.natAbs with
    | nil => exact absurd hni hnn
    | cons a l => rfl
  by_cases hv : v < 0
  · have hic : intChars v = '-' :: natChars v.natAbs := by
      rw [intChars, if_pos hv]
    rw [hic, List.cons_append, readIntCore, if_pos rfl]
    rw [span_digits (natChars v.natAbs) rest hnd hrest]
    simp only [hie, Bool.false_eq_true, if_false, hnv]
    have : -(v.natAbs : Int) = v := by omega
    rw [this]
  · have hic : intChars v = natChars v.natAbs := by
      rw [intChars, if_neg hv]
    obtain ⟨d, ds, hd⟩ := List.exists_cons_of_ne_nil hnn
    have hddig : d.isDigit = true := hnd d (by rw [hd]; exact List.mem_cons_self d ds)
    have hdm : d ≠ '-' := by
      intro h
      rw [h] at hddig
      exact absurd hddig (by decide)
    have hdp : d ≠ '+' := by
      intro h
      rw [h] at hddig
      exact absurd hddig (by decide)
    rw [hic, hd, List.cons_append, readIntCore, if_neg hdm, if_neg hdp]
    rw [show d :: (ds ++ rest) = (d :: ds) ++ rest from rfl, ← hd]
    rw [span_digits (natChars v.natAbs) rest hnd hrest]
    simp only [hie, Bool.false_eq_true, if_false, hnv]
    have : (v.natAbs : Int) = v := Int.natAbs_of_nonneg (by omega)
    rw [this]

/-- The serializer's tail stream starts with a semicolon (or is empty), never
with a digit. -/
theorem renderTail_head_not_digit (as : List Int) :
    ∀ c, (renderTail as).head? = some c → c.isDigit = false := by
  cases as with
  | nil =>
    intro c hc
    simp [renderTail] at hc
  | cons a t =>
    intro c hc
    have : (renderTail (a :: t)).head? = some ';' := by
      simp [renderTail, List.flatMap_cons]
    rw [this] at hc
    rw [(Option.some_inj.mp hc).symm]
    decide

/-- Each serialized coefficient occupies at least three characters. -/
theorem renderTail_length_ge (as : List Int) :
    as.length ≤ (renderTail as).length := by
  induction as with
  | nil => simp [renderTail]
  | cons a t ih =>
    have h1 : 1 ≤ (intChars a).length :=
      List.length_pos.mpr (intChars_spec a).1
    have hrt : renderTail (a :: t) = ';' :: ' ' :: (intChars a ++ renderTail t) := by
      simp [renderTail, List.flatMap_cons]
    rw [hrt]
    simp only [List.length_cons, List.length_append]
    omega

/-- The token loop consumes the serializer's tail stream and appends exactly
the rendered integers, provided the fuel exceeds their number. -/
theorem parseLoop_renderTail (as : List Int) : ∀ (fuel : Nat) (acc : List Int),
    as.length < fuel → parseLoop fuel (renderTail as) acc = acc ++ as := by
  induction as with
  | nil =>
    intro fuel acc hf
    obtain ⟨f, rfl⟩ : ∃ f, fuel = f + 1 := ⟨fuel - 1, by omega⟩
    rw [parseLoop]
    have hrc : readChar (renderTail []) = none := by
      simp [renderTail, readChar, skipWs]
    rw [hrc]
    simp
  | cons a t ih =>
    intro fuel acc hf
    obtain ⟨f, rfl⟩ : ∃ f, fuel = f + 1 := ⟨fuel - 1, by omega⟩
    have hrt : renderTail (a :: t) = ';' :: ' ' :: (intChars a ++ renderTail t) := by
      simp [renderTail, List.flatMap_cons]
    have hrc : readChar (renderTail (a :: t)) = some (';', ' ' :: (intChars a ++ renderTail t)) := by
      rw [hrt, readChar, skipWs_cons_of_not_space _ _ (by decide)]
    have hsw : skipWs (' ' :: (intChars a ++ renderTail t)) = intChars a ++ renderTail t := by
      rw [skipWs, List.dropWhile_cons, if_pos (by decide)]
      exact skipWs_intChars_append a (renderTail t)
    have hri : readInt (' ' :: (intChars a ++ renderTail t)) = some (a, renderTail t) := by
      rw [readInt, hsw]
      exact readIntCore_intChars a (renderTail t) (renderTail_head_not_digit t)
    rw [parseLoop, hrc]
    simp only [hri, if_pos rfl]
    rw [ih f (acc ++ [a]) (by simpa using hf)]
    simp

/-- Every character of the serializer's tail stream is a separator, a sign,
or a digit. -/
theorem renderTail_chars (as : List Int) :
    ∀ c ∈ renderTail as, c = ';' ∨ c = ' ' ∨ c = '-' ∨ c.isDigit = true := by
  induction as with
  | nil => simp [renderTail]
  | cons a t ih =>
    intro c hc
    rw [show renderTail (a :: t) = ';' :: ' ' :: (intChars a ++ renderTail t) from by
      simp [renderTail, List.flatMap_cons]] at hc
    rcases List.mem_cons.mp hc with rfl | hc
    · exact Or.inl rfl
    rcases List.mem_cons.mp hc with rfl | hc
    · exact Or.inr (Or.inl rfl)
    rcases List.mem_append.mp hc with hc | hc
    · rcases (intChars_spec a).2 c hc with rfl | h
      · exact Or.inr (Or.inr (Or.inl rfl))
      · exact Or.inr (Or.inr (Or.inr h))
    · exact ih c hc

/-- Separators, signs and digits are not square brackets. -/
theorem not_bracket_of_class (c : Char)
    (h : c = ';' ∨ c = ' ' ∨ c = '-' ∨ c.isDigit = true) :
    ¬(c = '[') ∧ ¬(c = ']') := by
  rcases h with rfl | rfl | rfl | h
  · exact ⟨by decide, by decide⟩
  · exact ⟨by decide, by decide⟩
  · exact ⟨by decide, by decide⟩
  · constructor <;> intro hc <;> rw [hc] at h <;> exact absurd h (by decide)

/-- The format regex accepts a bracket wrap around any non-empty
bracket-free content and captures the content. -/
theorem bracketContent_wrap (body : List Char) (hne : body ≠ [])
    (hb : ∀ c ∈ body, ¬(c = '[') ∧ ¬(c = ']')) :
    bracketContent ('[' :: (body ++ [']'])) = some body := by
  have hie : body.isEmpty = false := by
    cases hb2 : body with
    | nil => exact absurd hb2 hne
    | cons a l => rfl
  have hall : body.all (fun x => !(x == '[') && !(x == ']')) = true := by
    rw [List.all_eq_true]
    intro c hc
    obtain ⟨h1, h2⟩ := hb c hc
    simp [h1, h2]
  rw [bracketContent]
  rw [if_pos ⟨rfl, by rw [List.getLast?_concat]⟩]
  rw [List.dropLast_concat, hie]
  simp only [Bool.false_eq_true, if_false, hall, if_true]

/-- For a marker-free coefficient list the serializer's per-coefficient
chunks are exactly the `"; "`-separated renderings of the signed values. -/
theorem flatMap_chunks (cs : List Coefficient)
    (h : ∀ c ∈ cs, c.is_periodic_marker = false) :
    (cs.flatMap (fun c =>
      (if c.is_periodic_marker then [';', ' ', '('] else [';', ' '])
        ++ intChars c.signed_value))
    = renderTail (cs.map Coefficient.signed_value) := by
  induction cs with
  | nil => simp [renderTail]
  | cons c t ih =>
    have hc : c.is_periodic_marker = false := h c (by simp)
    rw [List.flatMap_cons, hc, ih (fun x hx => h x (by simp [hx]))]
    simp [renderTail, List.flatMap_cons]

/-- Rebuilding each stored coefficient from its signed value is the identity
on canonically stored sequences (every coefficient the library ever stores is
`Coefficient(signed)` for some signed value, or carries the marker). -/
theorem map_mk1_signed (cs : List Coefficient)
    (h : ∀ c ∈ cs, c = Coefficient.mk1 c.signed_value) :
    (cs.map Coefficient.signed_value).map Coefficient.mk1 = cs := by
  induction cs with
  | nil => rfl
  | cons c t ih =>
    simp only [List.map_cons]
    rw [← h c (by simp), ih (fun x hx => h x (by simp [hx]))]

/-- `any_of` over markers is false on marker-free sequences. -/
theorem hasMarker_false_of (cs : List Coefficient)
    (h : ∀ c ∈ cs, c.is_periodic_marker = false) :
    hasMarker cs = false := by
  rw [hasMarker, List.any_eq_false]
  intro c hc
  simp [h c hc]

/-- `operator==` is true on fractions holding the same coefficient vector. -/
theorem cfEq_of_eq_coeffs (a b : ContinuedFraction)
    (h : a.coefficients = b.coefficients) : cfEq a b = true := by
  simp only [cfEq, h, Bool.and_eq_true, beq_self_eq_true, true_and, List.all_eq_true]
  intro i _
  simp [Coefficient.eqCoeff]

/-- C9 counterexample: the fraction built from {3, 2, 1, -1, 7} is
non-periodic and *is* a normalization output (its stored sequence [3, 1, 7]
is what `normalize()` produced), yet re-parsing its `to_string()` rendering
"[3; 1; 7]" normalizes again — this time merging the 1 — to [10], so the
round-tripped fraction is `operator==`-unequal to the original: normalization
is not idempotent and the claimed round-trip fails for this canonical-form
fraction. -/
theorem roundtrip_fails_on_non_fixpoint :
    (ContinuedFraction.ofList [3, 2, 1, -1, 7]).coefficients
        = normalizeCoeffs (([3, 2, 1, -1, 7] : List Int).map Coefficient.mk1) ∧
    (ContinuedFraction.ofList [3, 2, 1, -1, 7]).is_periodic = false ∧
    (ContinuedFraction.ofList [3, 2, 1, -1, 7]).get_coefficients = [3, 1, 7] ∧
    (ContinuedFraction.ofString
        ((ContinuedFraction.ofList [3, 2, 1, -1, 7]).to_stringChars)).map
      (fun x => cfEq x (ContinuedFraction.ofList [3, 2, 1, -1, 7])) = Except.ok false := by
  decide

/-- C9 (amended): for every non-periodic fraction with a non-empty,
canonically stored (each coefficient is `Coefficient(signed_value)`),
marker-free coefficient sequence that is a *fixpoint* of the normalization
pass, parsing `to_string()` yields a fraction `operator==`-equal to the
original: the write path's `"; "` separators are exactly what the read path's
semicolon tokenizer accepts.  (The claim's own hypothesis "canonical
(normalized) form" is not enough, because normalization is not idempotent —
see the counterexample; the fixpoint hypothesis is the needed repair.) -/
theorem to_string_parse_roundtrip (cf : ContinuedFraction)
    (hne : cf.coefficients ≠ [])
    (hcanon : ∀ c ∈ cf.coefficients, c = Coefficient.mk1 c.signed_value)
    (hnomark : ∀ c ∈ cf.coefficients, c.is_periodic_marker = false)
    (hper : cf.is_periodic = false)
    (hfix : normalizeCoeffs cf.coefficients = cf.coefficients) :
    (ContinuedFraction.ofString cf.to_stringChars).map (fun x => cfEq x cf)
      = Except.ok true := by
  obtain ⟨cs, fin, per, cache, vc⟩ := cf
  simp only at hne hcanon hnomark hper hfix
  cases cs with
  | nil => exact absurd rfl hne
  | cons c0 rest =>
    -- the serialized character stream
    have hstr : ContinuedFraction.to_stringChars
        ⟨c0 :: rest, fin, per, cache, vc⟩
        = '[' :: ((intChars c0.signed_value
            ++ renderTail (rest.map Coefficient.signed_value)) ++ [']']) := by
      rw [ContinuedFraction.to_stringChars]
      simp only
      rw [flatMap_chunks rest (fun x hx => hnomark x (by simp [hx]))]
      rw [hper]
      simp [List.cons_append, List.append_assoc]
    set body := intChars c0.signed_value
        ++ renderTail (rest.map Coefficient.signed_value) with hbody
    -- the regex accepts and captures the body
    have hbne : body ≠ [] := by
      rw [hbody]
      intro h
      exact (intChars_spec c0.signed_value).1 (List.append_eq_nil.mp h).1
    have hbchars : ∀ c ∈ body, ¬(c = '[') ∧ ¬(c = ']') := by
      intro c hc
      rw [hbody] at hc
      rcases List.mem_append.mp hc with hc | hc
      · rcases (intChars_spec c0.signed_value).2 c hc with rfl | h
        · exact not_bracket_of_class _ (Or.inr (Or.inr (Or.inl rfl)))
        · exact not_bracket_of_class _ (Or.inr (Or.inr (Or.inr h)))
      · exact not_bracket_of_class _ (renderTail_chars _ c hc)
    have hbc : bracketContent ('[' :: (body ++ [']'])) = some body :=
      bracketContent_wrap body hbne hbchars
    -- the leading integer
    have hri : readInt body
        = some (c0.signed_value, renderTail (rest.map Coefficient.signed_value)) := by
      rw [hbody, readInt, skipWs_intChars_append]
      exact readIntCore_intChars _ _ (renderTail_head_not_digit _)
    -- the token loop
    have hpl : parseLoop ((renderTail (rest.map Coefficient.signed_value)).length + 1)
        (renderTail (rest.map Coefficient.signed_value)) [c0.signed_value]
        = (c0 :: rest).map Coefficient.signed_value := by
      rw [parseLoop_renderTail _ _ _
        (by have := renderTail_length_ge (rest.map Coefficient.signed_value); simp at *; omega)]
      simp
    -- the parse succeeds and rebuilds the same coefficients
    have hmk : (((c0 :: rest).map Coefficient.signed_value).map Coefficient.mk1)
        = c0 :: rest := map_mk1_signed _ hcanon
    have hmark : hasMarker (c0 :: rest) = false := hasMarker_false_of _ hnomark
    rw [hstr]
    rw [ContinuedFraction.ofString, ContinuedFraction.parse_string]
    simp only [hbc, hri, hpl, hmk]
    rw [ContinuedFraction.normalize]
    simp only [hfix, hmark]
    exact congrArg Except.ok (cfEq_of_eq_coeffs _ _ rfl)

/-- C9 witness: the amended statement applied to the fixpoint fraction built
from {3, 7, 307} (the normalized form of the π approximant of C4): parsing
its rendering "[3; 7; 307]" returns an `operator==`-equal fraction. -/
theorem to_string_parse_roundtrip_witness :
    (ContinuedFraction.ofString
        ((ContinuedFraction.ofList [3, 7, 307]).to_stringChars)).map
      (fun x => cfEq x (ContinuedFraction.ofList [3, 7, 307])) = Except.ok true :=
  to_string_parse_roundtrip (ContinuedFraction.ofList [3, 7, 307])
    (by decide) (by decide) (by decide) (by decide) (by decide)

end CFLib
